import Mathlib

/-!
# MetalSphereDemo: the shared uniform record `SphereParams`

`Shaders/SphereParams.h` declares

    struct SphereParams {
        float  time;
    };

and is compiled twice: once for the host (imported into Swift through Clang)
and once for the GPU (included from the Metal shading language).  This file
embeds the declaration, the struct layout rules both compilers apply to it,
the object representation of a record in memory, and the write/read path
between the two sides.
-/

namespace MetalSphereDemo

/-! ## Declarations -/

/-- The two compilation targets of the shared header. -/
inductive Target where
  | host
  | shader
deriving DecidableEq, Repr

/-- Scalar types a header shared between C and Metal can name.  The record
itself only uses `float`; the others let the layout rules be exercised on
declarations that need padding. -/
inductive Prim where
  | char
  | short
  | int
  | float
deriving DecidableEq, Repr

/-- One member declaration: `ty name;`. -/
structure Field where
  name : String
  ty : Prim
deriving DecidableEq, Repr

/-- A struct declaration: its tag and its members in declaration order. -/
structure StructDecl where
  name : String
  fields : List Field
deriving DecidableEq, Repr

/-- The declaration in `SphereParams.h`: `struct SphereParams { float time; };`. -/
def SphereParams.decl : StructDecl :=
  ⟨"SphereParams", [⟨"time", Prim.float⟩]⟩

/-! ## Target ABIs -/

/-- Size in bytes of a scalar type on a target: the C ABI of the Apple
arm64 and x86-64 platforms for the host, the scalar data type table of the
Metal shading language for the shader.  The header does not fix these; they
are what the two compilers bring to `float time;`. -/
def Prim.size : Target → Prim → Nat
  | Target.host, Prim.char => 1
  | Target.host, Prim.short => 2
  | Target.host, Prim.int => 4
  | Target.host, Prim.float => 4
  | Target.shader, Prim.char => 1
  | Target.shader, Prim.short => 2
  | Target.shader, Prim.int => 4
  | Target.shader, Prim.float => 4

/-- Alignment in bytes of a scalar type on a target. -/
def Prim.align : Target → Prim → Nat
  | Target.host, Prim.char => 1
  | Target.host, Prim.short => 2
  | Target.host, Prim.int => 4
  | Target.host, Prim.float => 4
  | Target.shader, Prim.char => 1
  | Target.shader, Prim.short => 2
  | Target.shader, Prim.int => 4
  | Target.shader, Prim.float => 4

/-! ## Struct layout -/

/-- The least multiple of `a` that is at least `off`. -/
def alignUp (off a : Nat) : Nat :=
  (off + a - 1) / a * a

/-- Where one member ended up. -/
structure FieldLayout where
  name : String
  ty : Prim
  offset : Nat
  size : Nat
deriving DecidableEq, Repr

/-- The layout of a struct on one target. -/
structure Layout where
  size : Nat
  align : Nat
  fields : List FieldLayout
deriving DecidableEq, Repr

/-- Place the members one after the other starting at offset `off`: each goes
to the next offset that is a multiple of its alignment.  Returns the placed
members and the offset just past the last one. -/
def placeFields (t : Target) : Nat → List Field → List FieldLayout × Nat
  | off, [] => ([], off)
  | off, f :: fs =>
    let o := alignUp off (Prim.align t f.ty)
    let rest := placeFields t (o + Prim.size t f.ty) fs
    (⟨f.name, f.ty, o, Prim.size t f.ty⟩ :: rest.1, rest.2)

/-- The alignment of a struct: the largest alignment among its members. -/
def structAlign (t : Target) (fs : List Field) : Nat :=
  fs.foldl (fun a f => max a (Prim.align t f.ty)) 1

/-- The layout of a declaration on a target: members placed in order, the
total size rounded up to the struct alignment. -/
def layoutOf (t : Target) (d : StructDecl) : Layout :=
  let placed := placeFields t 0 d.fields
  let a := structAlign t d.fields
  ⟨alignUp placed.2 a, a, placed.1⟩

/-- What `sizeof(struct ...)` evaluates to. -/
def sizeof (t : Target) (d : StructDecl) : Nat :=
  (layoutOf t d).size

/-- What `alignof(struct ...)` evaluates to. -/
def alignof (t : Target) (d : StructDecl) : Nat :=
  (layoutOf t d).align

/-- The placed member called `name`, if the struct has one. -/
def fieldLayout (t : Target) (d : StructDecl) (name : String) : Option FieldLayout :=
  (layoutOf t d).fields.find? (fun f => f.name == name)

/-- What `offsetof(struct ..., name)` evaluates to. -/
def offsetof (t : Target) (d : StructDecl) (name : String) : Option Nat :=
  (fieldLayout t d name).map FieldLayout.offset

/-- Number of padding bytes in a layout: the size minus the bytes the members
occupy. -/
def paddingBytes (l : Layout) : Nat :=
  l.size - (l.fields.map FieldLayout.size).sum

/-! ## Single-precision values -/

/-- A `float`: an IEEE-754 binary32 datum, identified with its 32-bit
pattern (1 sign bit, 8 exponent bits, 23 fraction bits). -/
structure Float32 where
  bits : Fin 4294967296
deriving DecidableEq, Repr

namespace Float32

/-- The datum with the given pattern, reduced modulo `2^32`. -/
def ofBits (n : Nat) : Float32 :=
  ⟨⟨n % 4294967296, Nat.mod_lt n (by decide)⟩⟩

/-- Sign bit. -/
def sign (x : Float32) : Nat := x.bits.val / 2147483648

/-- Biased exponent field. -/
def exponent (x : Float32) : Nat := x.bits.val / 8388608 % 256

/-- Fraction field. -/
def fraction (x : Float32) : Nat := x.bits.val % 8388608

/-- Not-a-number: all exponent bits set, non-zero fraction. -/
def isNaN (x : Float32) : Prop := x.exponent = 255 ∧ x.fraction ≠ 0

/-- An infinity: all exponent bits set, zero fraction. -/
def isInf (x : Float32) : Prop := x.exponent = 255 ∧ x.fraction = 0

/-- Finite: zero, subnormal or normal. -/
def isFinite (x : Float32) : Prop := x.exponent < 255

instance (x : Float32) : Decidable x.isNaN :=
  inferInstanceAs (Decidable (x.exponent = 255 ∧ x.fraction ≠ 0))
instance (x : Float32) : Decidable x.isInf :=
  inferInstanceAs (Decidable (x.exponent = 255 ∧ x.fraction = 0))
instance (x : Float32) : Decidable x.isFinite :=
  inferInstanceAs (Decidable (x.exponent < 255))

/-- The literal `0.0`. -/
def zero : Float32 := ofBits 0

/-- Positive infinity. -/
def posInf : Float32 := ofBits 0x7F800000

/-- Negative infinity. -/
def negInf : Float32 := ofBits 0xFF800000

/-- The default quiet NaN. -/
def qNaN : Float32 := ofBits 0x7FC00000

/-- Position of a non-NaN datum on the extended number line, as an integer
that grows with the value: the magnitude bits, negated when the sign bit is
set (so `-0.0` and `0.0` share a position). -/
def key (x : Float32) : Int :=
  if x.sign = 0 then (x.bits.val : Int) else -((x.bits.val : Int) - 2147483648)

/-- The comparison `a < b` of two floats: false when either is NaN. -/
def lt (a b : Float32) : Prop := ¬ a.isNaN ∧ ¬ b.isNaN ∧ a.key < b.key

instance (a b : Float32) : Decidable (lt a b) :=
  inferInstanceAs (Decidable (¬ a.isNaN ∧ ¬ b.isNaN ∧ a.key < b.key))

end Float32

/-- A value of `struct SphereParams`. -/
structure SphereParams where
  time : Float32
deriving DecidableEq, Repr

/-- The assignment `p.time = v`. -/
def SphereParams.setTime (_p : SphereParams) (v : Float32) : SphereParams :=
  ⟨v⟩

/-! ## Memory -/

/-- One byte of memory. -/
abbrev Byte := Fin 256

/-- Byte order of a target. -/
inductive ByteOrder where
  | little
  | big
deriving DecidableEq, Repr

/-- Byte order of each target: the host CPUs and the GPUs Metal runs on are
both little-endian. -/
def byteOrder : Target → ByteOrder
  | Target.host => ByteOrder.little
  | Target.shader => ByteOrder.little

/-- The `w` low-order bytes of `n`, least significant first. -/
def toBytesLE : Nat → Nat → List Byte
  | 0, _ => []
  | w + 1, n => ⟨n % 256, Nat.mod_lt n (by decide)⟩ :: toBytesLE w (n / 256)

/-- The number whose bytes, least significant first, are `bs`. -/
def ofBytesLE : List Byte → Nat
  | [] => 0
  | b :: bs => b.val + 256 * ofBytesLE bs

/-- The object representation of a `w`-byte scalar with bit pattern `n`. -/
def encodeScalar (o : ByteOrder) (w n : Nat) : List Byte :=
  match o with
  | ByteOrder.little => toBytesLE w n
  | ByteOrder.big => (toBytesLE w n).reverse

/-- The bit pattern of the scalar stored in `bs`. -/
def decodeScalar (o : ByteOrder) (bs : List Byte) : Nat :=
  match o with
  | ByteOrder.little => ofBytesLE bs
  | ByteOrder.big => ofBytesLE bs.reverse

/-- Store `bs` at offset `off` of `mem`.  A store that does not fit leaves
the memory as it was. -/
def writeBytes (mem : List Byte) (off : Nat) (bs : List Byte) : List Byte :=
  if off + bs.length ≤ mem.length then
    mem.take off ++ bs ++ mem.drop (off + bs.length)
  else mem

/-- The `len` bytes of `mem` from offset `off` on. -/
def readBytes (mem : List Byte) (off len : Nat) : List Byte :=
  (mem.drop off).take len

/-- Store a record into the memory `mem` that holds it, as code compiled for
target `t` does: the bytes of `time` go to the offset of `time`. -/
def SphereParams.store (t : Target) (p : SphereParams) (mem : List Byte) : List Byte :=
  match fieldLayout t SphereParams.decl "time" with
  | some f => writeBytes mem f.offset (encodeScalar (byteOrder t) f.size p.time.bits.val)
  | none => mem

/-- Load a record from the memory `mem` that holds it, as code compiled for
target `t` does. -/
def SphereParams.load (t : Target) (mem : List Byte) : SphereParams :=
  match fieldLayout t SphereParams.decl "time" with
  | some f => ⟨Float32.ofBits (decodeScalar (byteOrder t) (readBytes mem f.offset f.size))⟩
  | none => ⟨Float32.zero⟩

/-- The bytes of a record: `sizeof` bytes, all members stored. -/
def SphereParams.toBytes (t : Target) (p : SphereParams) : List Byte :=
  p.store t (List.replicate (sizeof t SphereParams.decl) 0)

/-! ## Frames -/

/-- One frame on the shared memory `mem`: the host assigns `v` to `time` of
the record and stores it, then the shader loads the record and reads `time`.
Returns the memory after the frame and the value the shader read. -/
def frame (mem : List Byte) (v : Float32) : List Byte × Float32 :=
  let p := (SphereParams.load Target.host mem).setTime v
  let mem1 := p.store Target.host mem
  (mem1, (SphereParams.load Target.shader mem1).time)

/-- The values the shader reads over a sequence of frames, one host write
per frame, starting from memory `mem`. -/
def runFrames : List Byte → List Float32 → List Float32
  | _, [] => []
  | mem, v :: vs => (frame mem v).2 :: runFrames (frame mem v).1 vs

/-! ## Decimal literals and rounding to single precision -/

/-- A non-negative decimal literal: `digits / 10 ^ scale`. -/
structure Decimal where
  digits : Nat
  scale : Nat
deriving DecidableEq, Repr

/-- The exact value of a decimal literal. -/
def Decimal.toRat (x : Decimal) : ℚ :=
  (x.digits : ℚ) / (10 : ℚ) ^ x.scale

/-- The literal `3.14159`. -/
def lit_3_14159 : Decimal := ⟨314159, 5⟩

/-- Number of binary digits of `n`, looking at no more than `fuel` of them. -/
def bitLength : Nat → Nat → Nat
  | 0, _ => 0
  | fuel + 1, n => if n = 0 then 0 else bitLength fuel (n / 2) + 1

/-- The integer `e` with `2^e ≤ n/d < 2^(e+1)`, for positive `n` and `d`. -/
def floorLog2 (n d : Nat) : Int :=
  let e : Int := (bitLength n n : Int) - (bitLength d d : Int)
  if d * 2 ^ e.toNat ≤ n * 2 ^ (-e).toNat then e else e - 1

/-- The integer nearest to `n/d`, ties going to the even one. -/
def roundHalfEven (n d : Nat) : Nat :=
  let q := n / d
  let r := n % d
  if 2 * r < d then q
  else if d < 2 * r then q + 1
  else if q % 2 = 0 then q else q + 1

/-- The exponent the rounded value of `n/d` is scaled by: that of `n/d`
itself, or the smallest normal exponent when `n/d` is below the normal range. -/
def binaryExponent (n d : Nat) : Int :=
  max (floorLog2 n d) (-126)

/-- The 24-bit significand of `n/d`: `n/d` scaled by `2^(23 - e)` and rounded
to the nearest integer, ties to even. -/
def significand (n d : Nat) : Nat :=
  let s : Int := 23 - binaryExponent n d
  roundHalfEven (n * 2 ^ s.toNat) (d * 2 ^ (-s).toNat)

namespace Float32

/-- The binary32 datum nearest to the non-negative rational `n/d` (`d > 0`),
round-to-nearest, ties-to-even; values too large become infinity.  Adding the
significand to the exponent field less one lets its leading bit, or a carry
out of rounding, land in the exponent. -/
def ofRatio (n d : Nat) : Float32 :=
  if n = 0 then zero
  else
    let b := (binaryExponent n d + 126).toNat * 8388608 + significand n d
    if 2139095040 ≤ b then posInf else ofBits b

/-- Conversion of a decimal literal to `float`. -/
def ofDecimal (x : Decimal) : Float32 :=
  ofRatio x.digits (10 ^ x.scale)

/-- The exact value of a finite datum (junk for infinities and NaN). -/
def toRat (x : Float32) : ℚ :=
  let m : ℚ := if x.exponent = 0 then x.fraction else 8388608 + x.fraction
  let mag : ℚ := m * (2 : ℚ) ^ (max x.exponent 1) / (2 : ℚ) ^ 150
  if x.sign = 0 then mag else -mag

end Float32

/-! ## Sanity checks of the layout rules -/

theorem layout_char_float :
    layoutOf Target.host ⟨"S", [⟨"c", Prim.char⟩, ⟨"x", Prim.float⟩]⟩
      = ⟨8, 4, [⟨"c", Prim.char, 0, 1⟩, ⟨"x", Prim.float, 4, 4⟩]⟩ := by
  decide

theorem layout_float_char :
    layoutOf Target.shader ⟨"S", [⟨"x", Prim.float⟩, ⟨"c", Prim.char⟩]⟩
      = ⟨8, 4, [⟨"x", Prim.float, 0, 4⟩, ⟨"c", Prim.char, 4, 1⟩]⟩ := by
  decide

theorem padding_char_short_char_int :
    paddingBytes (layoutOf Target.host
      ⟨"S", [⟨"c", Prim.char⟩, ⟨"s", Prim.short⟩, ⟨"d", Prim.char⟩, ⟨"x", Prim.int⟩]⟩) = 4 := by
  decide

/-! ## Layout of `SphereParams` -/

/-- The two ABIs give every scalar type the same size. -/
theorem Prim.size_host_eq_shader (p : Prim) :
    Prim.size Target.host p = Prim.size Target.shader p := by
  cases p <;> rfl

/-- The two ABIs give every scalar type the same alignment. -/
theorem Prim.align_host_eq_shader (p : Prim) :
    Prim.align Target.host p = Prim.align Target.shader p := by
  cases p <;> rfl

theorem placeFields_host_eq_shader (fs : List Field) (off : Nat) :
    placeFields Target.host off fs = placeFields Target.shader off fs := by
  induction fs generalizing off with
  | nil => rfl
  | cons f fs ih =>
    simp only [placeFields, Prim.size_host_eq_shader, Prim.align_host_eq_shader, ih]

theorem structAlign_host_eq_shader (fs : List Field) :
    structAlign Target.host fs = structAlign Target.shader fs := by
  simp only [structAlign, Prim.align_host_eq_shader]

/-- Any declaration built from the shared scalar types is laid out the same
way on both targets. -/
theorem layoutOf_host_eq_shader (d : StructDecl) :
    layoutOf Target.host d = layoutOf Target.shader d := by
  simp only [layoutOf, placeFields_host_eq_shader, structAlign_host_eq_shader]

/-- The member `time` as placed on either target. -/
theorem fieldLayout_time (t : Target) :
    fieldLayout t SphereParams.decl "time" = some ⟨"time", Prim.float, 0, 4⟩ := by
  cases t <;> decide

theorem sizeof_decl (t : Target) : sizeof t SphereParams.decl = 4 := by
  cases t <;> decide

/-- C1: under the struct layout rules the declared member list of
`SphereParams` has size 4, on the host and on the shader target. -/
theorem sizeof_SphereParams :
    sizeof Target.host SphereParams.decl = 4 ∧
    sizeof Target.shader SphereParams.decl = 4 := by
  constructor <;> decide

/-- C2: the byte offset of the member `time` of `SphereParams` is 0, on the
host and on the shader target. -/
theorem offsetof_time :
    offsetof Target.host SphereParams.decl "time" = some 0 ∧
    offsetof Target.shader SphereParams.decl "time" = some 0 := by
  constructor <;> decide

/-- C5: the layout of `SphereParams` (size, alignment, and name, type, offset
and size of every member in declaration order) computed from the shared
declaration for the host equals the one computed for the shader. -/
theorem layout_host_eq_shader :
    layoutOf Target.host SphereParams.decl = layoutOf Target.shader SphereParams.decl ∧
    layoutOf Target.host SphereParams.decl = ⟨4, 4, [⟨"time", Prim.float, 0, 4⟩]⟩ := by
  constructor <;> decide

/-- C6: `SphereParams` has exactly one member, called `time`, of type `float`,
which is a 4-byte scalar holding a 32-bit pattern; on either target the struct
is 4-byte aligned and has no padding, its size being the sum of its member
sizes. -/
theorem SphereParams_single_float (t : Target) :
    SphereParams.decl.fields = [⟨"time", Prim.float⟩] ∧
    Prim.size t Prim.float = 4 ∧
    8 * Prim.size t Prim.float = 32 ∧
    (∀ v : Float32, v.bits.val < 2 ^ 32) ∧
    alignof t SphereParams.decl = 4 ∧
    paddingBytes (layoutOf t SphereParams.decl) = 0 ∧
    sizeof t SphereParams.decl
      = ((layoutOf t SphereParams.decl).fields.map FieldLayout.size).sum := by
  refine ⟨rfl, ?_, ?_, fun v => v.bits.isLt, ?_, ?_, ?_⟩ <;> cases t <;> decide

/-! ## Bytes -/

theorem toBytesLE_length (w n : Nat) : (toBytesLE w n).length = w := by
  induction w generalizing n with
  | zero => rfl
  | succ w ih => simp [toBytesLE, ih]

theorem ofBytesLE_toBytesLE (w n : Nat) : ofBytesLE (toBytesLE w n) = n % 256 ^ w := by
  induction w generalizing n with
  | zero => simp [toBytesLE, ofBytesLE, Nat.mod_one]
  | succ w ih =>
    simp only [toBytesLE, ofBytesLE, ih]
    rw [pow_succ, mul_comm (256 ^ w) 256, Nat.mod_mul]

theorem readBytes_writeBytes (mem bs : List Byte) (off : Nat)
    (h : off + bs.length ≤ mem.length) :
    readBytes (writeBytes mem off bs) off bs.length = bs := by
  have hoff : off ≤ mem.length := by omega
  simp [readBytes, writeBytes, h, List.drop_append, List.length_take, hoff]

theorem writeBytes_length (mem bs : List Byte) (off : Nat) :
    (writeBytes mem off bs).length = mem.length := by
  unfold writeBytes
  split
  · simp only [List.length_append, List.length_take, List.length_drop]
    omega
  · rfl

theorem Float32.ofBits_bits (v : Float32) : Float32.ofBits v.bits.val = v := by
  cases v with
  | mk b =>
    simp only [Float32.ofBits, Float32.mk.injEq]
    exact Fin.ext (Nat.mod_eq_of_lt b.isLt)

/-! ## Store and load -/

theorem SphereParams.store_length (t : Target) (p : SphereParams) (mem : List Byte) :
    (p.store t mem).length = mem.length := by
  simp only [SphereParams.store, fieldLayout_time, writeBytes_length]

/-- What one target stores, the other loads back, whatever the bit pattern. -/
theorem SphereParams.load_store (t u : Target) (p : SphereParams) (mem : List Byte)
    (h : 4 ≤ mem.length) : SphereParams.load u (p.store t mem) = p := by
  have hlen : (toBytesLE 4 p.time.bits.val).length = 4 := toBytesLE_length 4 _
  have hrd := readBytes_writeBytes mem (toBytesLE 4 p.time.bits.val) 0 (by omega)
  rw [hlen] at hrd
  have hmod : p.time.bits.val % 256 ^ 4 = p.time.bits.val :=
    Nat.mod_eq_of_lt (by have := p.time.bits.isLt; omega)
  cases t <;> cases u <;>
    simp only [SphereParams.load, SphereParams.store, fieldLayout_time, byteOrder,
      encodeScalar, decodeScalar, hrd, ofBytesLE_toBytesLE, hmod, Float32.ofBits_bits]

theorem SphereParams.toBytes_length (t : Target) (p : SphereParams) :
    (p.toBytes t).length = 4 := by
  simp only [SphereParams.toBytes, SphereParams.store_length, List.length_replicate,
    sizeof_decl]

theorem SphereParams.load_toBytes (t u : Target) (p : SphereParams) :
    SphereParams.load u (p.toBytes t) = p := by
  unfold SphereParams.toBytes
  apply SphereParams.load_store
  simp only [List.length_replicate, sizeof_decl, le_refl]

/-- C3: for every finite `v`, assigning `v` to `time`, taking the 4 bytes of
the record as the host lays them out and loading `time` from those bytes as
the shader does gives back `v`, bit for bit (so what is read is finite too);
in particular `0.0` reads back as `0.0`. -/
theorem roundtrip_time (p : SphereParams) (v : Float32) (hv : v.isFinite) :
    ((p.setTime v).toBytes Target.host).length = 4 ∧
    (SphereParams.load Target.shader ((p.setTime v).toBytes Target.host)).time = v ∧
    (SphereParams.load Target.shader ((p.setTime v).toBytes Target.host)).time.bits = v.bits ∧
    (SphereParams.load Target.shader ((p.setTime v).toBytes Target.host)).time.isFinite ∧
    (SphereParams.load Target.shader
      ((p.setTime Float32.zero).toBytes Target.host)).time = Float32.zero := by
  rw [SphereParams.load_toBytes Target.host Target.shader (p.setTime v),
    SphereParams.load_toBytes Target.host Target.shader (p.setTime Float32.zero)]
  exact ⟨SphereParams.toBytes_length _ _, rfl, rfl, hv, rfl⟩

theorem roundtrip_time_witness :
    Float32.isFinite (Float32.ofBits 0x3F800000) ∧
    (SphereParams.load Target.shader
      (((SphereParams.mk Float32.zero).setTime (Float32.ofBits 0x3F800000)).toBytes
        Target.host)).time = Float32.ofBits 0x3F800000 :=
  ⟨by decide,
    (roundtrip_time (SphereParams.mk Float32.zero) (Float32.ofBits 0x3F800000) (by decide)).2.1⟩

/-- C7: constructing or updating a record is total and validates nothing:
for every `float` value `v`, NaN and the infinities included, the record holds
exactly `v` after `time` is set, and so do its bytes. -/
theorem setTime_any_value (p : SphereParams) (v : Float32) :
    (p.setTime v).time = v ∧
    (SphereParams.mk v).time = v ∧
    SphereParams.load Target.host ((p.setTime v).toBytes Target.host) = SphereParams.mk v ∧
    (p.setTime Float32.qNaN).time = Float32.qNaN ∧ Float32.qNaN.isNaN ∧
    (p.setTime Float32.posInf).time = Float32.posInf ∧ Float32.posInf.isInf ∧
    (p.setTime Float32.negInf).time = Float32.negInf ∧ Float32.negInf.isInf ∧
    Float32.negInf.sign = 1 ∧ Float32.posInf.sign = 0 := by
  refine ⟨rfl, rfl, ?_, rfl, by decide, rfl, by decide, rfl, by decide, by decide, by decide⟩
  simp only [SphereParams.load_toBytes, SphereParams.setTime]

/-! ## Frames -/

theorem frame_eq (mem : List Byte) (v : Float32) (h : 4 ≤ mem.length) :
    (frame mem v).2 = v ∧ (frame mem v).1.length = mem.length := by
  simp only [frame, SphereParams.load_store _ _ _ _ h, SphereParams.store_length,
    SphereParams.setTime, and_self]

theorem runFrames_eq (vs : List Float32) (mem : List Byte) (h : 4 ≤ mem.length) :
    runFrames mem vs = vs := by
  induction vs generalizing mem with
  | nil => rfl
  | cons v vs ih =>
    have hf := frame_eq mem v h
    simp only [runFrames, hf.1, ih (frame mem v).1 (by omega)]

/-- C8: over any non-empty sequence of host writes `v1, ..., vn` to `time` of
one record, with a shader read after each write, the `k`-th read returns
`vk` (so the last read returns the last value written); hence strictly
increasing writes give strictly increasing reads. -/
theorem runFrames_in_order (mem : List Byte) (vs : List Float32)
    (hmem : sizeof Target.host SphereParams.decl ≤ mem.length) (hne : vs ≠ []) :
    (runFrames mem vs).length = vs.length ∧
    (∀ k (hk : k < vs.length), (runFrames mem vs)[k]? = some vs[k]) ∧
    (runFrames mem vs).getLast? = some (vs.getLast hne) ∧
    (List.Chain' Float32.lt vs → List.Chain' Float32.lt (runFrames mem vs)) := by
  rw [sizeof_decl] at hmem
  rw [runFrames_eq vs mem hmem]
  exact ⟨rfl, fun k hk => List.getElem?_eq_getElem hk, List.getLast?_eq_getLast vs hne, id⟩

theorem runFrames_in_order_witness :
    sizeof Target.host SphereParams.decl ≤ [(0 : Byte), 0, 0, 0].length ∧
    [Float32.ofBits 0x3F800000, Float32.ofBits 0x40000000] ≠ [] ∧
    List.Chain' Float32.lt [Float32.ofBits 0x3F800000, Float32.ofBits 0x40000000] ∧
    (∀ k (hk : k < [Float32.ofBits 0x3F800000, Float32.ofBits 0x40000000].length),
      (runFrames [0, 0, 0, 0] [Float32.ofBits 0x3F800000, Float32.ofBits 0x40000000])[k]?
        = some [Float32.ofBits 0x3F800000, Float32.ofBits 0x40000000][k]) ∧
    List.Chain' Float32.lt
      (runFrames [0, 0, 0, 0] [Float32.ofBits 0x3F800000, Float32.ofBits 0x40000000]) :=
  ⟨by decide, by decide, List.chain'_pair.mpr (by decide),
    (runFrames_in_order [0, 0, 0, 0] [Float32.ofBits 0x3F800000, Float32.ofBits 0x40000000]
      (by decide) (by decide)).2.1,
    (runFrames_in_order [0, 0, 0, 0] [Float32.ofBits 0x3F800000, Float32.ofBits 0x40000000]
      (by decide) (by decide)).2.2.2 (List.chain'_pair.mpr (by decide))⟩

/-! ## Correctness of the rounding -/

theorem bitLength_zero (fuel : Nat) : bitLength fuel 0 = 0 := by
  cases fuel <;> simp [bitLength]

theorem bitLength_spec (fuel n : Nat) (h : n ≤ fuel) :
    n < 2 ^ bitLength fuel n ∧ (0 < n → 2 ^ bitLength fuel n ≤ 2 * n) := by
  induction fuel generalizing n with
  | zero =>
    have : n = 0 := by omega
    subst this
    simp [bitLength]
  | succ fuel ih =>
    by_cases hn : n = 0
    · subst hn
      simp [bitLength]
    · have hle : n / 2 ≤ fuel := by omega
      obtain ⟨h1, h2⟩ := ih (n / 2) hle
      simp only [bitLength, hn, if_false, pow_succ]
      constructor
      · omega
      · intro _
        by_cases h0 : n / 2 = 0
        · rw [h0, bitLength_zero]
          omega
        · have := h2 (by omega)
          omega

/-- A power of two with an integer exponent, split into numerator and
denominator. -/
theorem two_zpow_split (z : Int) :
    (2 : ℚ) ^ z = (2 : ℚ) ^ z.toNat / (2 : ℚ) ^ (-z).toNat := by
  rcases le_total 0 z with hz | hz
  · have h1 : (-z).toNat = 0 := Int.toNat_eq_zero.mpr (by omega)
    rw [h1, pow_zero, div_one]
    conv_lhs => rw [← Int.toNat_of_nonneg hz]
    exact zpow_natCast 2 z.toNat
  · have h1 : z.toNat = 0 := Int.toNat_eq_zero.mpr hz
    have h2 : z = -(((-z).toNat : Nat) : Int) := by
      rw [Int.toNat_of_nonneg (by omega)]
      omega
    rw [h1, pow_zero, one_div]
    conv_lhs => rw [h2]
    rw [zpow_neg, zpow_natCast]

/-- The test `floorLog2` makes on naturals is the comparison of `n/d` with
`2^z`. -/
theorem floorLog2_test (n d : Nat) (hd : 0 < d) (z : Int) :
    d * 2 ^ z.toNat ≤ n * 2 ^ (-z).toNat ↔ (2 : ℚ) ^ z ≤ (n : ℚ) / d := by
  have hdq : (0 : ℚ) < d := by exact_mod_cast hd
  have hpos : (0 : ℚ) < 2 ^ (-z).toNat := by positivity
  rw [two_zpow_split, le_div_iff₀ hdq, div_mul_eq_mul_div, div_le_iff₀ hpos]
  constructor
  · intro h
    have h1 : ((d * 2 ^ z.toNat : Nat) : ℚ) ≤ ((n * 2 ^ (-z).toNat : Nat) : ℚ) := by
      exact_mod_cast h
    push_cast at h1
    linarith
  · intro h
    have h1 : ((d * 2 ^ z.toNat : Nat) : ℚ) ≤ ((n * 2 ^ (-z).toNat : Nat) : ℚ) := by
      push_cast
      linarith
    exact_mod_cast h1

/-- The result of `floorLog2 n d` is the binary exponent of `n/d`. -/
theorem floorLog2_spec (n d : Nat) (hn : 0 < n) (hd : 0 < d) :
    (2 : ℚ) ^ floorLog2 n d ≤ (n : ℚ) / d ∧
    (n : ℚ) / d < (2 : ℚ) ^ (floorLog2 n d + 1) := by
  obtain ⟨hn1, hn2⟩ := bitLength_spec n n le_rfl
  obtain ⟨hd1, hd2⟩ := bitLength_spec d d le_rfl
  have hn3 := hn2 hn
  have hd3 := hd2 hd
  have hA1 : (n : ℚ) < 2 ^ bitLength n n := by exact_mod_cast hn1
  have hA2 : (2 : ℚ) ^ bitLength n n ≤ 2 * n := by exact_mod_cast hn3
  have hB1 : (d : ℚ) < 2 ^ bitLength d d := by exact_mod_cast hd1
  have hB2 : (2 : ℚ) ^ bitLength d d ≤ 2 * d := by exact_mod_cast hd3
  have hdq : (0 : ℚ) < d := by exact_mod_cast hd
  have hnq : (0 : ℚ) < n := by exact_mod_cast hn
  have hApos : (0 : ℚ) < 2 ^ bitLength n n := by positivity
  have hBpos : (0 : ℚ) < 2 ^ bitLength d d := by positivity
  have he0 : (2 : ℚ) ^ ((bitLength n n : Int) - (bitLength d d : Int))
      = 2 ^ bitLength n n / 2 ^ bitLength d d := by
    rw [zpow_sub₀ two_ne_zero, zpow_natCast, zpow_natCast]
  have htest := floorLog2_test n d hd ((bitLength n n : Int) - (bitLength d d : Int))
  unfold floorLog2
  simp only
  split_ifs with hT
  · refine ⟨htest.mp hT, ?_⟩
    rw [zpow_add₀ two_ne_zero, he0, zpow_one, div_lt_iff₀ hdq, div_mul_eq_mul_div,
      div_mul_eq_mul_div, lt_div_iff₀ hBpos]
    nlinarith
  · have hlt : (n : ℚ) / d < (2 : ℚ) ^ ((bitLength n n : Int) - (bitLength d d : Int)) :=
      lt_of_not_le (fun h => hT (htest.mpr h))
    refine ⟨?_, by simpa using hlt⟩
    rw [zpow_sub₀ two_ne_zero, he0, zpow_one, le_div_iff₀ hdq, div_div, div_mul_eq_mul_div,
      div_le_iff₀ (by positivity)]
    nlinarith

theorem roundHalfEven_cases (n d : Nat) :
    (roundHalfEven n d = n / d ∧ 2 * (n % d) ≤ d) ∨
    (roundHalfEven n d = n / d + 1 ∧ d ≤ 2 * (n % d)) := by
  unfold roundHalfEven
  simp only
  split_ifs <;> omega

/-- No integer multiple of `d` is nearer to `n` than `roundHalfEven n d * d`. -/
theorem roundHalfEven_nearest_int (n d : Nat) (hd : 0 < d) (k : Int) :
    |(roundHalfEven n d : Int) * d - n| ≤ |k * d - n| := by
  have hdiv := (Nat.div_add_mod n d).symm
  have hr := Nat.mod_lt n hd
  have hc := roundHalfEven_cases n d
  generalize n / d = q0 at hdiv hc
  generalize n % d = r at hdiv hr hc
  generalize roundHalfEven n d = m at hc
  have hdivi : (n : Int) = (d : Int) * (q0 : Int) + (r : Int) := by exact_mod_cast hdiv
  have hri : (r : Int) < d := by exact_mod_cast hr
  have hr0 : (0 : Int) ≤ (r : Int) := Int.natCast_nonneg _
  have hd0 : (0 : Int) ≤ (d : Int) := Int.natCast_nonneg _
  rcases le_or_lt k (q0 : Int) with hk | hk
  · have hkd : k * d ≤ (q0 : Int) * d := mul_le_mul_of_nonneg_right hk hd0
    have hge : (r : Int) ≤ -(k * d - n) := by linarith
    rcases hc with ⟨he, h2⟩ | ⟨he, h2⟩
    · have h2i : 2 * (r : Int) ≤ d := by exact_mod_cast h2
      subst he
      refine le_trans (abs_le.mpr ⟨?_, ?_⟩) (le_trans hge (neg_le_abs _)) <;> linarith
    · have h2i : (d : Int) ≤ 2 * (r : Int) := by exact_mod_cast h2
      subst he
      refine le_trans (abs_le.mpr ⟨?_, ?_⟩) (le_trans hge (neg_le_abs _)) <;>
        push_cast <;> linarith
  · have hkd : ((q0 : Int) + 1) * d ≤ k * d :=
      mul_le_mul_of_nonneg_right (by omega) hd0
    have hge : (d : Int) - (r : Int) ≤ k * d - n := by linarith
    rcases hc with ⟨he, h2⟩ | ⟨he, h2⟩
    · have h2i : 2 * (r : Int) ≤ d := by exact_mod_cast h2
      subst he
      refine le_trans (abs_le.mpr ⟨?_, ?_⟩) (le_trans hge (le_abs_self _)) <;> linarith
    · have h2i : (d : Int) ≤ 2 * (r : Int) := by exact_mod_cast h2
      subst he
      refine le_trans (abs_le.mpr ⟨?_, ?_⟩) (le_trans hge (le_abs_self _)) <;>
        push_cast <;> linarith

/-- No integer is nearer to `n/d` than `roundHalfEven n d`. -/
theorem roundHalfEven_nearest (n d : Nat) (hd : 0 < d) (k : Int) :
    |(roundHalfEven n d : ℚ) - (n : ℚ) / d| ≤ |(k : ℚ) - (n : ℚ) / d| := by
  have hdq : (0 : ℚ) < d := by exact_mod_cast hd
  have h := roundHalfEven_nearest_int n d hd k
  have hq : ((|(roundHalfEven n d : Int) * d - n| : Int) : ℚ) ≤ ((|k * d - n| : Int) : ℚ) := by
    exact_mod_cast h
  push_cast at hq
  have e1 : (roundHalfEven n d : ℚ) - (n : ℚ) / d = ((roundHalfEven n d : ℚ) * d - n) / d := by
    field_simp
  have e2 : (k : ℚ) - (n : ℚ) / d = ((k : ℚ) * d - n) / d := by
    field_simp
  rw [e1, e2, abs_div, abs_div, abs_of_pos hdq]
  exact div_le_div_of_nonneg_right hq hdq.le

/-- Rounding moves a value by at most one half. -/
theorem roundHalfEven_half (n d : Nat) (hd : 0 < d) :
    |(roundHalfEven n d : ℚ) - (n : ℚ) / d| ≤ 1 / 2 := by
  have hdq : (0 : ℚ) < d := by exact_mod_cast hd
  have e1 : (roundHalfEven n d : ℚ) - (n : ℚ) / d = ((roundHalfEven n d : ℚ) * d - n) / d := by
    field_simp
  rw [e1, abs_div, abs_of_pos hdq, div_le_iff₀ hdq]
  have hdiv := (Nat.div_add_mod n d).symm
  have hr := Nat.mod_lt n hd
  have hc := roundHalfEven_cases n d
  generalize n / d = q0 at hdiv hc
  generalize n % d = r at hdiv hr hc
  generalize roundHalfEven n d = m at hc
  have hdivq : (n : ℚ) = (d : ℚ) * (q0 : ℚ) + (r : ℚ) := by exact_mod_cast hdiv
  have hrq : (r : ℚ) < d := by exact_mod_cast hr
  have hr0 : (0 : ℚ) ≤ (r : ℚ) := Nat.cast_nonneg _
  rcases hc with ⟨he, h2⟩ | ⟨he, h2⟩
  · have h2q : 2 * (r : ℚ) ≤ d := by exact_mod_cast h2
    subst he
    refine abs_le.mpr ⟨?_, ?_⟩ <;> nlinarith
  · have h2q : (d : ℚ) ≤ 2 * (r : ℚ) := by exact_mod_cast h2
    subst he
    push_cast
    refine abs_le.mpr ⟨?_, ?_⟩ <;> nlinarith

/-- On an exact tie the rounded integer is even. -/
theorem roundHalfEven_tie_even (n d : Nat) (h : 2 * (n % d) = d) :
    roundHalfEven n d % 2 = 0 := by
  unfold roundHalfEven
  simp only
  split_ifs <;> omega

/-- The value of the pattern `ofRatio` assembles: exponent field `E` plus a
significand `m` that may carry into the exponent. -/
theorem Float32.toRat_ofBits_pack (E m : Nat) (hm : m ≤ 16777216)
    (hlow : 1 ≤ E → 8388608 ≤ m) (hb : E * 8388608 + m < 2139095040) :
    Float32.toRat (Float32.ofBits (E * 8388608 + m)) = (m : ℚ) * 2 ^ (E + 1) / 2 ^ 150 := by
  have hval : (Float32.ofBits (E * 8388608 + m)).bits.val = E * 8388608 + m := by
    simp only [Float32.ofBits]
    omega
  have hsign : (Float32.ofBits (E * 8388608 + m)).sign = 0 := by
    unfold Float32.sign
    rw [hval]
    omega
  by_cases h1 : m < 8388608
  · have hE : E = 0 := by
      by_contra hne
      have := hlow (by omega)
      omega
    subst hE
    have hexp : (Float32.ofBits (0 * 8388608 + m)).exponent = 0 := by
      unfold Float32.exponent
      rw [hval]
      omega
    have hfrac : (Float32.ofBits (0 * 8388608 + m)).fraction = m := by
      unfold Float32.fraction
      rw [hval]
      omega
    simp only [Float32.toRat, hsign, hexp, hfrac, if_true]
    norm_num
  · by_cases h2 : m < 16777216
    · have hexp : (Float32.ofBits (E * 8388608 + m)).exponent = E + 1 := by
        unfold Float32.exponent
        rw [hval]
        omega
      have hfrac : (Float32.ofBits (E * 8388608 + m)).fraction = m - 8388608 := by
        unfold Float32.fraction
        rw [hval]
        omega
      have hcast : ((m - 8388608 : Nat) : ℚ) = (m : ℚ) - 8388608 := by
        rw [Nat.cast_sub (by omega)]
        norm_num
      simp only [Float32.toRat, hsign, hexp, hfrac, hcast, if_true, Nat.add_one_ne_zero,
        if_false]
      rw [max_eq_left (by omega)]
      ring
    · have hm2 : m = 16777216 := by omega
      subst hm2
      have hexp : (Float32.ofBits (E * 8388608 + 16777216)).exponent = E + 2 := by
        unfold Float32.exponent
        rw [hval]
        omega
      have hfrac : (Float32.ofBits (E * 8388608 + 16777216)).fraction = 0 := by
        unfold Float32.fraction
        rw [hval]
        omega
      have hne : E + 2 ≠ 0 := by omega
      simp only [Float32.toRat, hsign, hexp, hfrac, if_true, hne, if_false]
      rw [max_eq_left (by omega)]
      push_cast
      ring

/-- The magnitude of a finite datum: a significand below `2^24` times a power
of two, the exponent field (at least 1) giving the power. -/
theorem Float32.toRat_repr (y : Float32) (hy : y.isFinite) :
    ∃ M F : Nat, M < 16777216 ∧ 1 ≤ F ∧ F ≤ 254 ∧
      (y.toRat = (M : ℚ) * 2 ^ F / 2 ^ 150 ∨ y.toRat = -((M : ℚ) * 2 ^ F / 2 ^ 150)) := by
  have hfr : y.fraction < 8388608 := Nat.mod_lt _ (by decide)
  unfold Float32.isFinite at hy
  by_cases he : y.exponent = 0
  · refine ⟨y.fraction, 1, by omega, le_refl 1, by omega, ?_⟩
    by_cases hs : y.sign = 0
    · left
      simp only [Float32.toRat, he, hs, if_true]
      norm_num
    · right
      simp only [Float32.toRat, he, hs, if_true, if_false]
      norm_num
  · refine ⟨8388608 + y.fraction, y.exponent, by omega, by omega, by omega, ?_⟩
    have hmax : max y.exponent 1 = y.exponent := max_eq_left (by omega)
    by_cases hs : y.sign = 0
    · left
      simp only [Float32.toRat, he, hs, if_true, if_false, hmax]
      push_cast
      ring
    · right
      simp only [Float32.toRat, he, hs, if_false, hmax]
      push_cast
      ring

/-- The ratio `significand` rounds is `n/d` scaled by `2^(23 - e)`. -/
theorem scaled_eq (n d : Nat) (hd : 0 < d) (s : Int) :
    ((n * 2 ^ s.toNat : Nat) : ℚ) / ((d * 2 ^ (-s).toNat : Nat) : ℚ)
      = (n : ℚ) / d * (2 : ℚ) ^ s := by
  have hdq : (d : ℚ) ≠ 0 := by exact_mod_cast hd.ne'
  rw [two_zpow_split s]
  push_cast
  field_simp

theorem scaled_lt (n d : Nat) (hn : 0 < n) (hd : 0 < d) :
    (n : ℚ) / d * (2 : ℚ) ^ (23 - binaryExponent n d) < 16777216 := by
  have hspec := (floorLog2_spec n d hn hd).2
  have hle : floorLog2 n d + 1 ≤ binaryExponent n d + 1 := by
    unfold binaryExponent
    have := le_max_left (floorLog2 n d) (-126)
    omega
  have hpow : (2 : ℚ) ^ (floorLog2 n d + 1) ≤ (2 : ℚ) ^ (binaryExponent n d + 1) :=
    zpow_le_zpow_right₀ (by norm_num) hle
  have hpos : (0 : ℚ) < (2 : ℚ) ^ (23 - binaryExponent n d) := by positivity
  have hprod : (2 : ℚ) ^ (binaryExponent n d + 1) * (2 : ℚ) ^ (23 - binaryExponent n d)
      = 16777216 := by
    rw [← zpow_add₀ two_ne_zero]
    have : binaryExponent n d + 1 + (23 - binaryExponent n d) = 24 := by ring
    rw [this]
    norm_num
  calc (n : ℚ) / d * (2 : ℚ) ^ (23 - binaryExponent n d)
      < (2 : ℚ) ^ (binaryExponent n d + 1) * (2 : ℚ) ^ (23 - binaryExponent n d) :=
        mul_lt_mul_of_pos_right (lt_of_lt_of_le hspec hpow) hpos
    _ = 16777216 := hprod

theorem scaled_ge (n d : Nat) (hn : 0 < n) (hd : 0 < d) (he : -126 < binaryExponent n d) :
    (8388608 : ℚ) ≤ (n : ℚ) / d * (2 : ℚ) ^ (23 - binaryExponent n d) := by
  have hspec := (floorLog2_spec n d hn hd).1
  have heq : binaryExponent n d = floorLog2 n d := by
    unfold binaryExponent at he ⊢
    rcases max_cases (floorLog2 n d) (-126) with ⟨h1, _⟩ | ⟨h1, _⟩
    · exact h1
    · rw [h1] at he
      omega
  have hpos : (0 : ℚ) < (2 : ℚ) ^ (23 - binaryExponent n d) := by positivity
  have hprod : (2 : ℚ) ^ (binaryExponent n d) * (2 : ℚ) ^ (23 - binaryExponent n d)
      = 8388608 := by
    rw [← zpow_add₀ two_ne_zero]
    have : binaryExponent n d + (23 - binaryExponent n d) = 23 := by ring
    rw [this]
    norm_num
  rw [← heq] at hspec
  calc (8388608 : ℚ) = (2 : ℚ) ^ (binaryExponent n d) * (2 : ℚ) ^ (23 - binaryExponent n d) :=
        hprod.symm
    _ ≤ (n : ℚ) / d * (2 : ℚ) ^ (23 - binaryExponent n d) :=
        mul_le_mul_of_nonneg_right hspec hpos.le

/-- The significand is an integer nearest to the scaled value. -/
theorem significand_nearest (n d : Nat) (hd : 0 < d) (k : Int) :
    |(significand n d : ℚ) - (n : ℚ) / d * (2 : ℚ) ^ (23 - binaryExponent n d)|
      ≤ |(k : ℚ) - (n : ℚ) / d * (2 : ℚ) ^ (23 - binaryExponent n d)| := by
  have hD : 0 < d * 2 ^ (-(23 - binaryExponent n d)).toNat := by positivity
  have h := roundHalfEven_nearest (n * 2 ^ (23 - binaryExponent n d).toNat)
    (d * 2 ^ (-(23 - binaryExponent n d)).toNat) hD k
  rw [scaled_eq n d hd] at h
  exact h

theorem significand_half (n d : Nat) (hd : 0 < d) :
    |(significand n d : ℚ) - (n : ℚ) / d * (2 : ℚ) ^ (23 - binaryExponent n d)| ≤ 1 / 2 := by
  have hD : 0 < d * 2 ^ (-(23 - binaryExponent n d)).toNat := by positivity
  have h := roundHalfEven_half (n * 2 ^ (23 - binaryExponent n d).toNat)
    (d * 2 ^ (-(23 - binaryExponent n d)).toNat) hD
  rw [scaled_eq n d hd] at h
  exact h

theorem significand_le (n d : Nat) (hn : 0 < n) (hd : 0 < d) : significand n d ≤ 16777216 := by
  have h1 := (abs_le.mp (significand_half n d hd)).2
  have h2 := scaled_lt n d hn hd
  have h3 : (significand n d : ℚ) < 16777217 := by linarith
  have h4 : significand n d < 16777217 := by exact_mod_cast h3
  omega

theorem significand_ge (n d : Nat) (hn : 0 < n) (hd : 0 < d) (he : -126 < binaryExponent n d) :
    8388608 ≤ significand n d := by
  have h1 := (abs_le.mp (significand_half n d hd)).1
  have h2 := scaled_ge n d hn hd he
  have h3 : (8388607 : ℚ) < (significand n d : ℚ) := by linarith
  have h4 : 8388607 < significand n d := by exact_mod_cast h3
  omega

theorem binaryExponent_ge (n d : Nat) : -126 ≤ binaryExponent n d :=
  le_max_right _ _

/-- A finite result of `ofRatio` is the assembled pattern, which stays below
the pattern of infinity. -/
theorem Float32.ofRatio_finite (n d : Nat) (hn : 0 < n)
    (hfin : (Float32.ofRatio n d).isFinite) :
    (binaryExponent n d + 126).toNat * 8388608 + significand n d < 2139095040 ∧
    Float32.ofRatio n d
      = Float32.ofBits ((binaryExponent n d + 126).toNat * 8388608 + significand n d) := by
  unfold Float32.ofRatio at hfin ⊢
  simp only [hn.ne', if_false] at hfin ⊢
  split_ifs at hfin ⊢ with h
  · exact absurd hfin (by decide)
  · exact ⟨by omega, rfl⟩

/-- The value of a finite result: the significand scaled back. -/
theorem Float32.toRat_ofRatio (n d : Nat) (hn : 0 < n) (hd : 0 < d)
    (hfin : (Float32.ofRatio n d).isFinite) :
    (Float32.ofRatio n d).toRat
      = (significand n d : ℚ) / (2 : ℚ) ^ (23 - binaryExponent n d) := by
  obtain ⟨hb, heq⟩ := Float32.ofRatio_finite n d hn hfin
  have hge := binaryExponent_ge n d
  have hlow : 1 ≤ (binaryExponent n d + 126).toNat → 8388608 ≤ significand n d := by
    intro h
    exact significand_ge n d hn hd (by omega)
  rw [heq, Float32.toRat_ofBits_pack _ _ (significand_le n d hn hd) hlow hb]
  have hE : (((binaryExponent n d + 126).toNat : Nat) : Int) = binaryExponent n d + 126 :=
    Int.toNat_of_nonneg (by omega)
  have hpow : (2 : ℚ) ^ ((binaryExponent n d + 126).toNat + 1)
      * (2 : ℚ) ^ (23 - binaryExponent n d) = (2 : ℚ) ^ 150 := by
    rw [← zpow_natCast (2 : ℚ) ((binaryExponent n d + 126).toNat + 1),
      ← zpow_natCast (2 : ℚ) 150, ← zpow_add₀ two_ne_zero]
    congr 1
    push_cast
    rw [hE]
    ring
  have hc : (0 : ℚ) < (2 : ℚ) ^ (23 - binaryExponent n d) := by positivity
  rw [div_eq_div_iff (by positivity) hc.ne', mul_assoc, hpow]

/-- A finite datum, scaled like the significand, is an integer or lies at or
below `2^23` (and then the exponent is above the subnormal one). -/
theorem Float32.scaled_magnitude (e : Int) (M F : Nat) (hM : M < 16777216) (hF : 1 ≤ F) :
    (∃ k : Int, (M : ℚ) * 2 ^ F / 2 ^ 150 * (2 : ℚ) ^ (23 - e) = (k : ℚ)) ∨
    ((M : ℚ) * 2 ^ F / 2 ^ 150 * (2 : ℚ) ^ (23 - e) ≤ 8388608 ∧ -126 < e) := by
  have hz : (M : ℚ) * 2 ^ F / 2 ^ 150 * (2 : ℚ) ^ (23 - e)
      = (M : ℚ) * (2 : ℚ) ^ ((F : Int) - 127 - e) := by
    have h2 : (2 : ℚ) ^ F / 2 ^ 150 * (2 : ℚ) ^ (23 - e) = (2 : ℚ) ^ ((F : Int) - 127 - e) := by
      rw [← zpow_natCast (2 : ℚ) F, ← zpow_natCast (2 : ℚ) 150, ← zpow_sub₀ two_ne_zero,
        ← zpow_add₀ two_ne_zero]
      congr 1
      push_cast
      ring
    rw [← h2]
    ring
  rw [hz]
  rcases le_or_lt 0 ((F : Int) - 127 - e) with h | h
  · left
    refine ⟨(M : Int) * 2 ^ ((F : Int) - 127 - e).toNat, ?_⟩
    conv_lhs => rw [← Int.toNat_of_nonneg h]
    rw [zpow_natCast]
    push_cast
    rfl
  · right
    refine ⟨?_, by omega⟩
    have hle : (2 : ℚ) ^ ((F : Int) - 127 - e) ≤ (2 : ℚ) ^ (-1 : Int) :=
      zpow_le_zpow_right₀ (by norm_num) (by omega)
    have hM' : (M : ℚ) ≤ 16777216 := by exact_mod_cast hM.le
    have hM0 : (0 : ℚ) ≤ (M : ℚ) := Nat.cast_nonneg _
    have hp : (0 : ℚ) < (2 : ℚ) ^ ((F : Int) - 127 - e) := by positivity
    have hhalf : (2 : ℚ) ^ (-1 : Int) = 1 / 2 := by norm_num
    rw [hhalf] at hle
    nlinarith

/-- Whenever `ofRatio n d` is finite, no finite datum is nearer to `n/d`. -/
theorem Float32.ofRatio_nearest (n d : Nat) (hn : 0 < n) (hd : 0 < d)
    (hfin : (Float32.ofRatio n d).isFinite) (y : Float32) (hy : y.isFinite) :
    |(Float32.ofRatio n d).toRat - (n : ℚ) / d| ≤ |y.toRat - (n : ℚ) / d| := by
  have hc : (0 : ℚ) < (2 : ℚ) ^ (23 - binaryExponent n d) := by positivity
  have hq0 : (0 : ℚ) < (n : ℚ) / d := by positivity
  have hx0 : (0 : ℚ) < (n : ℚ) / d * (2 : ℚ) ^ (23 - binaryExponent n d) := by positivity
  have key : |(significand n d : ℚ) - (n : ℚ) / d * (2 : ℚ) ^ (23 - binaryExponent n d)|
      ≤ |y.toRat * (2 : ℚ) ^ (23 - binaryExponent n d)
          - (n : ℚ) / d * (2 : ℚ) ^ (23 - binaryExponent n d)| := by
    obtain ⟨M, F, hM, hF1, _, hrepr⟩ := Float32.toRat_repr y hy
    have hw0 : (0 : ℚ) ≤ (M : ℚ) * 2 ^ F / 2 ^ 150 * (2 : ℚ) ^ (23 - binaryExponent n d) := by
      positivity
    rcases hrepr with hpos | hneg
    · rw [hpos]
      rcases Float32.scaled_magnitude (binaryExponent n d) M F hM hF1 with ⟨k, hk⟩ | ⟨hle, he⟩
      · rw [hk]
        exact significand_nearest n d hd k
      · have h1 := significand_nearest n d hd 8388608
        have h2 := scaled_ge n d hn hd he
        push_cast at h1
        refine le_trans h1 ?_
        rw [abs_sub_comm, abs_of_nonneg (by linarith)]
        refine le_trans ?_ (neg_le_abs _)
        linarith
    · rw [hneg]
      have h1 := significand_nearest n d hd 0
      push_cast at h1
      refine le_trans h1 ?_
      rw [abs_sub_comm, abs_of_nonneg (by linarith)]
      refine le_trans ?_ (neg_le_abs _)
      linarith
  rw [Float32.toRat_ofRatio n d hn hd hfin]
  have e1 : (significand n d : ℚ) / (2 : ℚ) ^ (23 - binaryExponent n d) - (n : ℚ) / d
      = ((significand n d : ℚ) - (n : ℚ) / d * (2 : ℚ) ^ (23 - binaryExponent n d))
        / (2 : ℚ) ^ (23 - binaryExponent n d) := by
    field_simp
    ring
  have e2 : y.toRat - (n : ℚ) / d
      = (y.toRat * (2 : ℚ) ^ (23 - binaryExponent n d)
          - (n : ℚ) / d * (2 : ℚ) ^ (23 - binaryExponent n d))
        / (2 : ℚ) ^ (23 - binaryExponent n d) := by
    field_simp
    ring
  rw [e1, e2, abs_div, abs_div, abs_of_pos hc]
  exact div_le_div_of_nonneg_right key hc.le

/-! ## The value of 3.14159 among its neighbours -/

theorem toRat_40490FCF : Float32.toRat (Float32.ofBits 0x40490FCF) = 13176783 / 4194304 := by
  norm_num [Float32.toRat, Float32.exponent, Float32.fraction, Float32.sign, Float32.ofBits]

theorem toRat_40490FD0 : Float32.toRat (Float32.ofBits 0x40490FD0) = 13176784 / 4194304 := by
  norm_num [Float32.toRat, Float32.exponent, Float32.fraction, Float32.sign, Float32.ofBits]

theorem toRat_40490FDB : Float32.toRat (Float32.ofBits 0x40490FDB) = 13176795 / 4194304 := by
  norm_num [Float32.toRat, Float32.exponent, Float32.fraction, Float32.sign, Float32.ofBits]

/-- The literal lies strictly between two adjacent patterns, nearer to the
upper one. -/
theorem lit_3_14159_between :
    Float32.toRat (Float32.ofBits 0x40490FCF) < lit_3_14159.toRat ∧
    lit_3_14159.toRat < Float32.toRat (Float32.ofBits 0x40490FD0) ∧
    Float32.toRat (Float32.ofBits 0x40490FD0) - lit_3_14159.toRat
      < lit_3_14159.toRat - Float32.toRat (Float32.ofBits 0x40490FCF) := by
  rw [toRat_40490FCF, toRat_40490FD0]
  norm_num [Decimal.toRat, lit_3_14159]

/-- The pattern `0x40490FDB` is more than ten units in the last place away
from the literal. -/
theorem lit_3_14159_far_from_40490FDB :
    10 / 4194304 < Float32.toRat (Float32.ofBits 0x40490FDB) - lit_3_14159.toRat := by
  rw [toRat_40490FDB]
  norm_num [Decimal.toRat, lit_3_14159]

/-- No finite `float` is nearer to the decimal value 3.14159 than the one with
pattern `0x40490FD0`. -/
theorem lit_3_14159_nearest (y : Float32) (hy : y.isFinite) :
    |Float32.toRat (Float32.ofBits 0x40490FD0) - lit_3_14159.toRat|
      ≤ |y.toRat - lit_3_14159.toRat| := by
  have h := Float32.ofRatio_nearest 314159 (10 ^ 5) (by decide) (by decide) (by decide) y hy
  have he : Float32.ofRatio 314159 (10 ^ 5) = Float32.ofBits 0x40490FD0 := by decide
  rw [he] at h
  have hq : lit_3_14159.toRat = ((314159 : Nat) : ℚ) / ((10 ^ 5 : Nat) : ℚ) := by
    simp only [Decimal.toRat, lit_3_14159]
    push_cast
    rfl
  rw [hq]
  exact h

/-! ## The literal 3.14159 in the record -/

theorem ofDecimal_3_14159 : Float32.ofDecimal lit_3_14159 = Float32.ofBits 0x40490FD0 := by
  decide

/-- C4 as stated fails: `3.14159` rounds to a pattern other than `0x40490FDB`,
in the record and in what the shader loads. -/
theorem time_3_14159_ne_40490FDB :
    ((SphereParams.mk Float32.zero).setTime (Float32.ofDecimal lit_3_14159)).time.bits.val
      ≠ 0x40490FDB ∧
    (SphereParams.load Target.shader
      (((SphereParams.mk Float32.zero).setTime (Float32.ofDecimal lit_3_14159)).toBytes
        Target.host)).time.bits.val ≠ 0x40490FDB := by
  simp only [SphereParams.load_toBytes, SphereParams.setTime, ofDecimal_3_14159]
  decide

/-- C4, amended: when the host sets `time` to the decimal value 3.14159
rounded to single precision (nearest, ties to even), the pattern in the
record and the pattern the shader loads are both `0x40490FD0`. -/
theorem time_3_14159_bits (p : SphereParams) :
    (p.setTime (Float32.ofDecimal lit_3_14159)).time.bits.val = 0x40490FD0 ∧
    (SphereParams.load Target.shader
      ((p.setTime (Float32.ofDecimal lit_3_14159)).toBytes Target.host)).time.bits.val
      = 0x40490FD0 := by
  simp only [SphereParams.load_toBytes, SphereParams.setTime, ofDecimal_3_14159]
  decide

end MetalSphereDemo
